import Mathlib

/-!
Verification development for the Music Archiver pipeline
(src/music-archiver.ts). The TypeScript source is shallowly embedded:
pure functions become Lean functions over explicit data; the JavaScript
runtime behaviours that the code relies on (string truthiness, template
literals rendering null as "null", `Array.prototype.sort` being a stable
sort, regex leftmost-greedy matching, `Map` preserving insertion order)
are modelled explicitly.  External collaborators (filesystem, YouTube
search, yt-dlp subprocess, `Math.random`) are inputs to the embedded
functions, following the design notes of the component documentation.
Strings are modelled with Lean `String`; character classes (whitespace,
lower-casing) are modelled over ASCII, which covers every string the
embedded claims touch.
-/

namespace MusicArchiver

/-! ## JavaScript string primitives -/

/-- Whitespace class of the JavaScript `\s` regex class and `trim()`,
restricted to its ASCII members. -/
def isJsWs (c : Char) : Bool :=
  c == ' ' || c == '\t' || c == '\n' || c == '\x0d' || c == '\x0b' || c == '\x0c'

/-- Character-list model of `String.prototype.trim`. -/
def trimChars (l : List Char) : List Char :=
  ((l.dropWhile isJsWs).reverse.dropWhile isJsWs).reverse

/-- Model of `String.prototype.trim`. -/
def jsTrim (s : String) : String := ⟨trimChars s.data⟩

/-- Model of `String.prototype.toLowerCase` (ASCII letters). -/
def jsLower (s : String) : String := ⟨s.data.map Char.toLower⟩

/-- Occurrence of `needle` as a contiguous run inside `hay`: the model of
`String.prototype.includes`. -/
def containsSeq (needle : List Char) : List Char → Bool
  | [] => needle.isEmpty
  | c :: rest => needle.isPrefixOf (c :: rest) || containsSeq needle rest

/-- Model of `hay.includes(needle)`. -/
def jsIncludes (hay needle : String) : Bool := containsSeq needle.data hay.data

/-- Model of `s.startsWith(p)`. -/
def strStartsWith (s p : String) : Bool := p.data.isPrefixOf s.data

/-- Model of `s.endsWith(p)`. -/
def strEndsWith (s p : String) : Bool := p.data.reverse.isPrefixOf s.data.reverse

/-- JavaScript string truthiness for nullable strings: `null` and the
empty string are falsy. -/
def truthyStr : Option String → Option String
  | some s => if s = "" then none else some s
  | none => none

/-- Template-literal rendering of a nullable string: `null` prints as
the four characters "null". -/
def jsTemplate : Option String → String
  | none => "null"
  | some s => s

/-! ## Filename generation (downloadSong helpers) -/

/-- Characters removed by `sanitizeFilename`, the class `[<>:"/\\|?*]`. -/
def isIllegalFilenameChar (c : Char) : Bool :=
  c == '<' || c == '>' || c == ':' || c == '"' || c == '/' ||
  c == '\\' || c == '|' || c == '?' || c == '*'

/-- One pass of the `\s+` to single-space replacement: the Bool records
whether the previous character was part of a whitespace run. -/
def collapseWsAux : Bool → List Char → List Char
  | _, [] => []
  | prevWs, c :: rest =>
    if isJsWs c then
      if prevWs then collapseWsAux true rest
      else ' ' :: collapseWsAux true rest
    else c :: collapseWsAux false rest

/-- Model of `.replace(/\s+/g, ' ')`. -/
def collapseWs (l : List Char) : List Char := collapseWsAux false l

/-- Embedding of `sanitizeFilename`: strip illegal characters, collapse
whitespace runs, trim, cap at 200 characters. -/
def sanitizeFilename (s : String) : String :=
  ⟨(trimChars (collapseWs (s.data.filter (fun c => !isIllegalFilenameChar c)))).take 200⟩

/-- Embedding of `generateFilename`. -/
def generateFilename (trackName artistName ytId trackId : String) : String :=
  sanitizeFilename trackName ++ "___" ++ sanitizeFilename artistName ++
    "__ytId__" ++ ytId ++ "___trackId_" ++ trackId

/-- Embedding of `extractTrackId`: last `:`-separated segment of the
source URI, with the JavaScript `|| 'unknown'` fallback for the falsy
empty string. -/
def extractTrackId (spotifyUri : String) : String :=
  match (spotifyUri.splitOn ":").getLast? with
  | some s => if s = "" then "unknown" else s
  | none => "unknown"

/-! ## The scanner's two extraction patterns

`scanOutputDirectory` matches each file name against a regex of the
form `marker([^.]+)\.`.  JavaScript regex semantics: the engine looks
for the leftmost start position at which the whole pattern matches; at
that position the greedy `[^.]+` captures the maximal dot-free run that
is immediately followed by a literal dot. -/

/-- At a fixed position, the `([^.]+)\.` tail of the scanner patterns:
capture the run up to the first dot; fail if that run is empty or no
dot follows. -/
def captureAfter (t : List Char) : Option (List Char) :=
  let cap := t.takeWhile (fun c => c ≠ '.')
  if cap.isEmpty then none
  else if cap.length < t.length then some cap else none

/-- Leftmost match of `marker([^.]+)\.`: scan positions left to right;
where the marker occurs, try the capture; on failure resume scanning at
the next position, as the regex engine does. -/
def extractFirst (marker : List Char) : List Char → Option (List Char)
  | [] => none
  | c :: rest =>
    if marker.isPrefixOf (c :: rest) then
      match captureAfter ((c :: rest).drop marker.length) with
      | some cap => some cap
      | none => extractFirst marker rest
    else extractFirst marker rest

/-- The `/__ytId__([^.]+)\./` pattern of `getExistingYtIds`. -/
def extractYtIdFromName (name : String) : Option String :=
  (extractFirst "__ytId__".data name.data).map (fun l => ⟨l⟩)

/-- The `/___trackId_([^.]+)\./` pattern of `getExistingTrackIds`. -/
def extractTrackIdFromName (name : String) : Option String :=
  (extractFirst "___trackId_".data name.data).map (fun l => ⟨l⟩)

/-! ## Data model -/

/-- A raw listening event (interface SpotifyTrack), restricted to the
five fields the pipeline reads; the remaining fields of the interface
are accepted but never used. -/
structure SpotifyTrack where
  ts : String
  master_metadata_track_name : Option String
  master_metadata_album_artist_name : Option String
  master_metadata_album_album_name : Option String
  spotify_track_uri : Option String
deriving DecidableEq, Repr

/-- An aggregated history record (interface OutputTrack). -/
structure OutputTrack where
  timestamps : List String
  track_name : Option String
  artist_name : Option String
  album_name : Option String
  spotify_track_uri : String
deriving DecidableEq, Repr

/-- The truthiness test `if (track.spotify_track_uri)`: `null` and the
empty string are both falsy, so such events are dropped. -/
def uriOf (e : SpotifyTrack) : Option String :=
  match e.spotify_track_uri with
  | some u => if u = "" then none else some u
  | none => none

/-! ## History aggregation (parseSpotifyStreamingHistory, lines 178-213)

The JavaScript `Map` keyed by URI is modelled as an association list:
insertion appends at the end, updates mutate in place, so iteration
order is first-encounter order, exactly as `Map` guarantees. -/

/-- The record created on first encounter of a URI. -/
def newTrack (u : String) (e : SpotifyTrack) : OutputTrack :=
  { timestamps := [e.ts]
  , track_name := e.master_metadata_track_name
  , artist_name := e.master_metadata_album_artist_name
  , album_name := e.master_metadata_album_album_name
  , spotify_track_uri := u }

/-- `existing.timestamps.push(track.ts)` on the (unique) entry with the
given key. -/
def pushTs (u : String) (ts : String) : List (String × OutputTrack) → List (String × OutputTrack)
  | [] => []
  | (k, t) :: m =>
    if k = u then (k, { t with timestamps := t.timestamps ++ [ts] }) :: m
    else (k, t) :: pushTs u ts m

/-- Association-list lookup (the `trackMap.get` of the source). -/
def lookupUri (m : List (String × OutputTrack)) (u : String) : Option OutputTrack :=
  match m with
  | [] => none
  | (k, t) :: rest => if k = u then some t else lookupUri rest u

/-- Processing of one listening event against the track map. -/
def addEvent (m : List (String × OutputTrack)) (e : SpotifyTrack) : List (String × OutputTrack) :=
  match uriOf e with
  | none => m
  | some u =>
    if (lookupUri m u).isSome then pushTs u e.ts m
    else m ++ [(u, newTrack u e)]

/-- The fold of all listening events into the track map. -/
def aggregate (events : List SpotifyTrack) : List (String × OutputTrack) :=
  events.foldl addEvent []

/-- Lexicographic comparison of character lists, the order JavaScript
uses for the comparator-free sort. -/
def charListLt : List Char → List Char → Bool
  | [], [] => false
  | [], _ :: _ => true
  | _ :: _, [] => false
  | a :: as, b :: bs => if a < b then true else if b < a then false else charListLt as bs

/-- Lexicographic string comparison as a Bool. -/
def strLtB (a b : String) : Bool := charListLt a.data b.data

/-- Stable insertion into an ascending list of strings. -/
def insertStringAsc (x : String) : List String → List String
  | [] => [x]
  | y :: ys => if strLtB y x then y :: insertStringAsc x ys else x :: y :: ys

/-- Extensional model of the comparator-free `timestamps.sort()`:
JavaScript sorts the strings into ascending lexicographic order. -/
def sortStringsAsc (l : List String) : List String := l.foldr insertStringAsc []

/-- The `.map(data => ({timestamps: data.timestamps.sort(), ...}))` step
over the values of the track map, in insertion order. -/
def buildOutput (m : List (String × OutputTrack)) : List OutputTrack :=
  m.map (fun p => { p.2 with timestamps := sortStringsAsc p.2.timestamps })

/-! ## Deduplicator (deduplicateTracks) -/

/-- The deduplication key: the template literal
artist_name|track_name with null fields rendered as "null". -/
def keyOf (t : OutputTrack) : String :=
  jsTemplate t.artist_name ++ "|" ++ jsTemplate t.track_name

/-- Keep-first filter over the key set (the `uniqueTracks` Map). -/
def dedupGo (seen : List String) : List OutputTrack → List OutputTrack
  | [] => []
  | t :: ts =>
    if keyOf t ∈ seen then dedupGo seen ts
    else t :: dedupGo (keyOf t :: seen) ts

/-- Embedding of `deduplicateTracks`. -/
def deduplicateTracks (tracks : List OutputTrack) : List OutputTrack :=
  dedupGo [] tracks

/-! ## Final ordering of the parser output -/

/-- Stable insertion into a list descending by timestamp count. -/
def insertTrackDesc (x : OutputTrack) : List OutputTrack → List OutputTrack
  | [] => [x]
  | y :: ys =>
    if x.timestamps.length < y.timestamps.length then y :: insertTrackDesc x ys
    else x :: y :: ys

/-- Extensional model of
`.sort((a, b) => b.timestamps.length - a.timestamps.length)`:
`Array.prototype.sort` is stable (ES2019), so the result is the unique
stable descending reordering by play count. -/
def sortTracksDesc (l : List OutputTrack) : List OutputTrack := l.foldr insertTrackDesc []

/-- The in-memory portion of `parseSpotifyStreamingHistory` (lines
207-213): map the track-map values to sorted-timestamp records,
deduplicate, then sort by descending play count. -/
def parseTracksCore (events : List SpotifyTrack) : List OutputTrack :=
  sortTracksDesc (deduplicateTracks (buildOutput (aggregate events)))

/-- Position of the first listening event carrying the given URI
(`events.length` if there is none): the formal reading of the order in
which identities are first encountered in the input. -/
def firstUriIdx (events : List SpotifyTrack) (u : String) : Nat :=
  events.findIdx (fun e => decide (uriOf e = some u))

/-! ## Directory-level parser (parseSpotifyStreamingHistory, file
handling)

A directory is a list of entries; each entry carries the result of
`JSON.parse` on its content at the trust boundary (`none` models a
parse failure, which the source catches per file). -/

structure DirEntry where
  name : String
  isFile : Bool
  parsed : Option (List SpotifyTrack)
deriving DecidableEq, Repr

/-- The naming-convention filter on directory entries. -/
def isHistoryFile (e : DirEntry) : Bool :=
  e.isFile && strStartsWith e.name "Streaming_History_Audio_" && strEndsWith e.name ".json"

/-- The message of the fatal error thrown when `filesProcessed === 0`. -/
def noHistoryFilesMsg : String :=
  "No Streaming_History_Audio_*.json files found in the specified directory"

/-- Embedding of `parseSpotifyStreamingHistory`: matching files that
fail to parse are reported and skipped (`filesProcessed` is incremented
only on success); the fatal error fires when no file was successfully
processed. -/
def parseSpotifyStreamingHistory (dir : List DirEntry) : Except String (List OutputTrack) :=
  if (dir.filter isHistoryFile).filterMap (fun e => e.parsed) = [] then
    Except.error noHistoryFilesMsg
  else
    Except.ok (parseTracksCore ((dir.filter isHistoryFile).filterMap (fun e => e.parsed)).flatten)

/-! ## Alternate entry point (parseSpotifyHistoryFile) -/

/-- Shape of a pre-processed history file after `JSON.parse`: the source
only checks `Array.isArray`. -/
inductive HistoryFileJson where
  | arr (tracks : List OutputTrack)
  | notAnArray
deriving DecidableEq, Repr

/-- Embedding of `parseSpotifyHistoryFile`: the loaded records are
returned as-is after the top-level shape check. -/
def parseSpotifyHistoryFile : HistoryFileJson → Except String (List OutputTrack)
  | .arr tracks => Except.ok tracks
  | .notAnArray => Except.error "Invalid file format - expected array of tracks"

/-- Embedding of `filterNewTracks`. -/
def filterNewTracks (tracks : List OutputTrack) (existingTrackIds : List String) : List OutputTrack :=
  tracks.filter (fun t =>
    !(existingTrackIds.contains (((t.spotify_track_uri.splitOn ":").getLast?).getD "")))

/-! ## Catalog matcher (searchYouTubeMusic, selectBestMatch,
shouldSkipSong, formatSongResult)

The loosely-typed search results (interface YTMusicSong) keep their
optional fields; DLSongResult is the validated value type.  Durations
in seconds are modelled as naturals. -/

structure DLSongThumbnail where
  url : String
  width : Nat
  height : Nat
deriving DecidableEq, Repr

structure DLSongDuration where
  text : String
  seconds : Nat
deriving DecidableEq, Repr

structure DLSongAlbum where
  id : String
  name : String
deriving DecidableEq, Repr

structure DLSongArtist where
  name : String
  channel_id : String
deriving DecidableEq, Repr

structure DLSongResult where
  id : String
  title : String
  thumbnails : List DLSongThumbnail
  duration : DLSongDuration
  album : DLSongAlbum
  artists : List DLSongArtist
deriving DecidableEq, Repr

structure YTMusicArtist where
  name : String
  channel_id : Option String
deriving DecidableEq, Repr

structure YTMusicAlbum where
  id : Option String
  name : Option String
deriving DecidableEq, Repr

structure YTMusicSong where
  id : Option String
  title : Option String
  thumbnails : Option (List DLSongThumbnail)
  duration : Option DLSongDuration
  album : Option YTMusicAlbum
  artists : Option (List YTMusicArtist)
deriving DecidableEq, Repr

/-- The normalisation `.toLowerCase().trim()` applied to both the
targets and the candidates. -/
def norm (s : String) : String := jsTrim (jsLower s)

/-- The predicate of the `songs.find(...)` call in `selectBestMatch`. -/
def isExactMatch (normTitle normArtist : String) (s : YTMusicSong) : Bool :=
  (match s.title with
   | some t => norm t == normTitle
   | none => false)
  &&
  (match s.artists with
   | some arts => arts.any (fun a => norm a.name == normArtist)
   | none => false)

/-- The fallback guard `firstResult?.title && firstResult?.artists?.[0]`:
a present non-empty title and a non-empty artist list. -/
def hasUsableFallback (s : YTMusicSong) : Bool :=
  (match s.title with
   | some t => !(t == "")
   | none => false)
  &&
  (match s.artists with
   | some (_ :: _) => true
   | _ => false)

/-- Embedding of `selectBestMatch`. -/
def selectBestMatch (songs : List YTMusicSong) (targetTitle targetArtist : String) :
    Option YTMusicSong :=
  match songs.find? (isExactMatch (norm targetTitle) (norm targetArtist)) with
  | some s => some s
  | none =>
    match songs with
    | [] => none
    | first :: _ => if hasUsableFallback first then some first else none

/-- Configuration fields consulted by the embedded core; the remaining
source fields (output directory, audio format, flags, paths) only feed
the external collaborators. -/
structure Config where
  minWaitTime : Nat
  maxWaitTime : Nat
  maxDuration : Nat
  blacklistedKeywords : List String
deriving Repr

/-- Embedding of `shouldSkipSong`.  The duration clause mirrors the
JavaScript truthiness chain `song.duration?.seconds && seconds > max`:
a zero-second duration is falsy and never triggers the exclusion. -/
def shouldSkipSong (cfg : Config) (song : YTMusicSong) : Bool :=
  (match song.duration with
   | some d => if d.seconds = 0 then false else decide (cfg.maxDuration < d.seconds)
   | none => false)
  ||
  cfg.blacklistedKeywords.any (fun keyword =>
    (match song.title with
     | some t => jsIncludes (jsLower t) keyword
     | none => false)
    ||
    (match song.artists with
     | some arts => arts.any (fun a => jsIncludes (jsLower a.name) keyword)
     | none => false))

/-- Embedding of `formatSongResult`: validation at the trust boundary,
with the falsy-empty-string checks of `!song.id || !song.title`. -/
def formatSongResult (song : YTMusicSong) : Option DLSongResult :=
  match song.id, song.title, song.duration with
  | some id, some title, some dur =>
    if id = "" || title = "" then none
    else some
      { id := id
      , title := title
      , thumbnails := song.thumbnails.getD []
      , duration := dur
      , album :=
          { id := (song.album.bind (fun a => a.id)).getD ""
          , name := (song.album.bind (fun a => a.name)).getD "" }
      , artists := (song.artists.getD []).map (fun a =>
          { name := a.name, channel_id := a.channel_id.getD "" }) }
  | _, _, _ => none

/-- Embedding of `searchYouTubeMusic` with the external query modelled
as the list of candidates it returned (an empty list also covers a
missing `search.songs?.contents`); a query failure is the same as no
results, both yield null. -/
def searchYouTubeMusic (cfg : Config) (results : List YTMusicSong)
    (title artist : String) : Option DLSongResult :=
  if jsTrim title = "" || jsTrim artist = "" then none
  else if results.isEmpty then none
  else
    match selectBestMatch results title artist with
    | none => none
    | some song => if shouldSkipSong cfg song then none else formatSongResult song

/-! ## Fetch orchestrator (processSpotifyHistory)

The loop is sequential; per item we record the outcome, whether the
fixed 2000 ms pause ran, and the randomized wait applied after the
item (if any).  The search and download collaborators and the
`Math.random` draws are inputs. -/

inductive Outcome where
  | successful
  | failed
  | skipped
deriving DecidableEq, Repr

structure ItemResult where
  outcome : Outcome
  pausedBeforeSkipCheck : Bool
  waitAfter : Option Int
deriving DecidableEq, Repr

/-- Embedding of `getRandomWaitTime`:
`Math.floor(Math.random() * (max - min + 1) + min) * 1000` with the
random draw given as a rational in `[0, 1)`. -/
def getRandomWaitTime (minW maxW : Nat) (r : ℚ) : Int :=
  ⌊r * ((maxW : ℚ) - (minW : ℚ) + 1) + (minW : ℚ)⌋ * 1000

/-- One iteration of the `processSpotifyHistory` loop for item `i` of
`n`.  Missing metadata fails before the search; a null search result
fails before the pause; an already-known catalog id skips before the
download; only items that reach the download are followed by the
randomized wait, and only when they are not last. -/
def processTrack (cfg : Config) (existing : List String)
    (search : String → String → Option DLSongResult)
    (download : DLSongResult → OutputTrack → Bool)
    (r : ℚ) (i n : Nat) (tr : OutputTrack) : ItemResult :=
  match truthyStr tr.track_name, truthyStr tr.artist_name with
  | some name, some artist =>
    (match search name artist with
     | none => { outcome := .failed, pausedBeforeSkipCheck := false, waitAfter := none }
     | some song =>
       if existing.contains song.id then
         { outcome := .skipped, pausedBeforeSkipCheck := true, waitAfter := none }
       else
         { outcome := if download song tr then .successful else .failed
         , pausedBeforeSkipCheck := true
         , waitAfter :=
             if i < n - 1 then some (getRandomWaitTime cfg.minWaitTime cfg.maxWaitTime r)
             else none })
  | _, _ => { outcome := .failed, pausedBeforeSkipCheck := false, waitAfter := none }

/-- Embedding of `processSpotifyHistory`: the per-item trace of the
sequential loop. -/
def processSpotifyHistory (cfg : Config) (existing : List String)
    (search : String → String → Option DLSongResult)
    (download : DLSongResult → OutputTrack → Bool)
    (rands : Nat → ℚ) (tracks : List OutputTrack) : List ItemResult :=
  tracks.enum.map (fun p =>
    processTrack cfg existing search download (rands p.1) p.1 tracks.length p.2)

/-- The run-level counters accumulated by the loop. -/
structure DownloadStats where
  successful : Nat
  failed : Nat
  skipped : Nat
deriving DecidableEq, Repr

/-- The summary counters of a trace. -/
def runStats (res : List ItemResult) : DownloadStats :=
  { successful := (res.filter (fun r => r.outcome = .successful)).length
  , failed := (res.filter (fun r => r.outcome = .failed)).length
  , skipped := (res.filter (fun r => r.outcome = .skipped)).length }

/-- A track reaches the download attempt: metadata present, a match
found, and the catalog id not already known.  These are exactly the
items after which the source applies the randomized wait (when not
last). -/
def ReachesDownload (existing : List String)
    (search : String → String → Option DLSongResult) (tr : OutputTrack) : Prop :=
  ∃ name artist song,
    truthyStr tr.track_name = some name ∧
    truthyStr tr.artist_name = some artist ∧
    search name artist = some song ∧
    existing.contains song.id = false

/-! ## Claim-side predicates, worded from the component documentation -/

/-- An exact match in the documented sense: the candidate title equals
the target title (case-insensitive, trimmed) and the contributing-artist
list contains an entry equal to the target artist (case-insensitive,
trimmed). -/
def ExactFor (targetTitle targetArtist : String) (s : YTMusicSong) : Prop :=
  (∃ t, s.title = some t ∧ norm t = norm targetTitle) ∧
  (∃ arts, s.artists = some arts ∧ ∃ a ∈ arts, norm a.name = norm targetArtist)

/-- A candidate has both a title and at least one artist, in the
truthy sense the fallback requires. -/
def HasTitleAndArtist (s : YTMusicSong) : Prop :=
  (∃ t, s.title = some t ∧ t ≠ "") ∧ (∃ arts, s.artists = some arts ∧ arts ≠ [])

/-- Case-insensitive substring containment, the documented reading of
the blacklist test. -/
def ContainsIgnoringCase (hay needle : String) : Prop :=
  jsIncludes (jsLower hay) (jsLower needle) = true

/-! ## Concrete fixtures used by counterexamples and witnesses -/

/-- First event: URI A, metadata (artist X, track Y), one play. -/
def evA1 : SpotifyTrack :=
  ⟨"2023-01-01T10:00:00Z", some "Y", some "X", some "AlbumOne", some "spotify:track:A"⟩

/-- Second event: URI B, the same (artist, track) metadata. -/
def evB1 : SpotifyTrack :=
  ⟨"2023-01-02T10:00:00Z", some "Y", some "X", some "AlbumTwo", some "spotify:track:B"⟩

/-- Third event: URI B again, so B ends with two plays. -/
def evB2 : SpotifyTrack :=
  ⟨"2023-01-03T10:00:00Z", some "Y", some "X", some "AlbumTwo", some "spotify:track:B"⟩

/-- The aggregated record for URI A in the three-event fixture. -/
def aggTrackA : OutputTrack :=
  ⟨["2023-01-01T10:00:00Z"], some "Y", some "X", some "AlbumOne", "spotify:track:A"⟩

/-- The aggregated record for URI B in the three-event fixture. -/
def aggTrackB : OutputTrack :=
  ⟨["2023-01-02T10:00:00Z", "2023-01-03T10:00:00Z"], some "Y", some "X", some "AlbumTwo",
    "spotify:track:B"⟩

/-- Colliding pair for the dedup key: artist a|b with title c. -/
def collideA : OutputTrack :=
  ⟨["t1"], some "c", some "a|b", none, "spotify:track:P"⟩

/-- Colliding pair for the dedup key: artist a with title b|c. -/
def collideB : OutputTrack :=
  ⟨["t2"], some "b|c", some "a", none, "spotify:track:Q"⟩

/-- A track with null artist and null track name. -/
def nullNamesA : OutputTrack := ⟨["t3"], none, none, none, "spotify:track:R"⟩

/-- A different track, also with null artist and null track name. -/
def nullNamesB : OutputTrack := ⟨["t4"], none, none, none, "spotify:track:S"⟩

/-- The default configuration of the command line. -/
def cfgEx : Config := ⟨6, 10, 420, []⟩

/-- A track whose track name is null (missing metadata). -/
def trNoMeta : OutputTrack := ⟨["2023-01-01"], none, some "A", none, "spotify:track:aaa"⟩

/-- A track with full metadata. -/
def trMeta : OutputTrack := ⟨["2023-01-02"], some "B", some "C", none, "spotify:track:bbb"⟩

/-- A search collaborator that never finds a match. -/
def searchNoResult : String → String → Option DLSongResult := fun _ _ => none

/-- A download collaborator that always succeeds. -/
def downloadOk : DLSongResult → OutputTrack → Bool := fun _ _ => true

/-- A validated catalog result used by orchestrator fixtures. -/
def dlSongEx : DLSongResult :=
  ⟨"yt123", "B", [], ⟨"3:20", 200⟩, ⟨"", ""⟩, [⟨"C", ""⟩]⟩

/-- A search collaborator that always returns `dlSongEx`. -/
def searchHit : String → String → Option DLSongResult := fun _ _ => some dlSongEx

/-- Candidate with the right title but the wrong artist. -/
def songOtherArtist : YTMusicSong :=
  ⟨some "yt1", some "Song", none, some ⟨"3:00", 180⟩, none, some [⟨"Other", none⟩]⟩

/-- Candidate with the right title and the right artist. -/
def songExactArtist : YTMusicSong :=
  ⟨some "yt2", some "Song", none, some ⟨"3:10", 190⟩, none, some [⟨"Artist", none⟩]⟩

/-- The only exact match, but 500 seconds long (over the 420 ceiling). -/
def songTooLong : YTMusicSong :=
  ⟨some "yt3", some "Song", none, some ⟨"8:20", 500⟩, none, some [⟨"Artist", none⟩]⟩

/-- A matching-named history file whose content fails to parse. -/
def badHistoryFile : DirEntry :=
  ⟨"Streaming_History_Audio_2023_0.json", true, none⟩

/-- A matching-named history file that parses to one event. -/
def goodHistoryFile : DirEntry :=
  ⟨"Streaming_History_Audio_2023_1.json", true, some [evA1]⟩

/-- An already-serialized record with an empty timestamp sequence. -/
def emptyTsTrack : OutputTrack := ⟨[], some "T", some "A", none, "spotify:track:Z"⟩

end MusicArchiver

namespace MusicArchiver

/-! ## Order facts for the lexicographic comparison -/

theorem charListLt_asymm : ∀ {a b : List Char}, charListLt a b = true → charListLt b a = false := by
  intro a
  induction a with
  | nil =>
    intro b h
    cases b with
    | nil => simp [charListLt] at h
    | cons x xs => simp [charListLt]
  | cons a0 as ih =>
    intro b h
    cases b with
    | nil => simp [charListLt] at h
    | cons b0 bs =>
      simp only [charListLt] at h ⊢
      by_cases h1 : a0 < b0
      · have h2 : ¬ b0 < a0 := lt_asymm h1
        simp [h1, h2]
      · by_cases h2 : b0 < a0
        · simp [h1, h2] at h
        · simp [h1, h2] at h ⊢
          exact ih h

theorem charListLt_le_trans :
    ∀ {a b c : List Char}, charListLt b a = false → charListLt c b = false →
      charListLt c a = false := by
  intro a
  induction a with
  | nil =>
    intro b c h1 h2
    cases c with
    | nil => rfl
    | cons c0 cs => rfl
  | cons a0 as ih =>
    intro b c h1 h2
    cases c with
    | nil =>
      cases b with
      | nil => simp [charListLt] at h1
      | cons b0 bs => simp [charListLt] at h2
    | cons c0 cs =>
      cases b with
      | nil => simp [charListLt] at h1
      | cons b0 bs =>
        simp only [charListLt] at h1 h2 ⊢
        by_cases hba : b0 < a0
        · rw [if_pos hba] at h1
          exact absurd h1 (by simp)
        · rw [if_neg hba] at h1
          by_cases hcb : c0 < b0
          · rw [if_pos hcb] at h2
            exact absurd h2 (by simp)
          · rw [if_neg hcb] at h2
            have hca : ¬ c0 < a0 := fun hlt => hcb (lt_of_lt_of_le hlt (not_lt.mp hba))
            rw [if_neg hca]
            by_cases hab : a0 < b0
            · have hac : a0 < c0 := lt_of_lt_of_le hab (not_lt.mp hcb)
              rw [if_pos hac]
            · rw [if_neg hab] at h1
              by_cases hbc : b0 < c0
              · have hac : a0 < c0 := lt_of_le_of_lt (not_lt.mp hba) hbc
                rw [if_pos hac]
              · rw [if_neg hbc] at h2
                by_cases hac : a0 < c0
                · rw [if_pos hac]
                · rw [if_neg hac]
                  exact ih h1 h2

theorem strLtB_asymm {a b : String} (h : strLtB a b = true) : strLtB b a = false :=
  charListLt_asymm h

theorem strLtB_le_trans {a b c : String} (h1 : strLtB b a = false) (h2 : strLtB c b = false) :
    strLtB c a = false :=
  charListLt_le_trans h1 h2

/-! ## The ascending string sort -/

theorem insertStringAsc_perm (x : String) (l : List String) :
    (insertStringAsc x l).Perm (x :: l) := by
  induction l with
  | nil => simp [insertStringAsc]
  | cons y ys ih =>
    simp only [insertStringAsc]
    by_cases h : strLtB y x = true
    · simp only [h, if_true]
      exact (ih.cons y).trans (List.Perm.swap x y ys)
    · simp only [Bool.not_eq_true] at h
      simp [h]

theorem sortStringsAsc_perm (l : List String) : (sortStringsAsc l).Perm l := by
  induction l with
  | nil => simp [sortStringsAsc]
  | cons x xs ih =>
    exact (insertStringAsc_perm x (sortStringsAsc xs)).trans (ih.cons x)

theorem insertStringAsc_pairwise (x : String) (l : List String)
    (h : l.Pairwise (fun a b => strLtB b a = false)) :
    (insertStringAsc x l).Pairwise (fun a b => strLtB b a = false) := by
  induction l with
  | nil => simp [insertStringAsc]
  | cons y ys ih =>
    simp only [insertStringAsc]
    rcases List.pairwise_cons.mp h with ⟨hy, hys⟩
    by_cases hc : strLtB y x = true
    · simp only [hc, if_true]
      refine List.pairwise_cons.mpr ⟨?_, ih hys⟩
      intro z hz
      rcases List.mem_cons.mp ((insertStringAsc_perm x ys).mem_iff.mp hz) with hzx | hzys
      · subst hzx
        exact strLtB_asymm hc
      · exact hy z hzys
    · simp only [Bool.not_eq_true] at hc
      simp only [hc, Bool.false_eq_true, if_false]
      refine List.pairwise_cons.mpr ⟨?_, h⟩
      intro z hz
      rcases List.mem_cons.mp hz with hzy | hzys
      · subst hzy
        exact hc
      · exact strLtB_le_trans hc (hy z hzys)

theorem sortStringsAsc_pairwise (l : List String) :
    (sortStringsAsc l).Pairwise (fun a b => strLtB b a = false) := by
  induction l with
  | nil => simp [sortStringsAsc]
  | cons x xs ih => exact insertStringAsc_pairwise x (sortStringsAsc xs) ih

/-! ## The stable descending sort by play count -/

theorem insertTrackDesc_perm (x : OutputTrack) (l : List OutputTrack) :
    (insertTrackDesc x l).Perm (x :: l) := by
  induction l with
  | nil => simp [insertTrackDesc]
  | cons y ys ih =>
    simp only [insertTrackDesc]
    by_cases h : x.timestamps.length < y.timestamps.length
    · simp only [h, if_true]
      exact (ih.cons y).trans (List.Perm.swap x y ys)
    · simp [h]

theorem sortTracksDesc_perm (l : List OutputTrack) : (sortTracksDesc l).Perm l := by
  induction l with
  | nil => simp [sortTracksDesc]
  | cons x xs ih =>
    exact (insertTrackDesc_perm x (sortTracksDesc xs)).trans (ih.cons x)

theorem mem_sortTracksDesc {x : OutputTrack} {l : List OutputTrack} :
    x ∈ sortTracksDesc l ↔ x ∈ l :=
  (sortTracksDesc_perm l).mem_iff

theorem insertTrackDesc_pairwise {C : OutputTrack → OutputTrack → Prop}
    (x : OutputTrack) (l : List OutputTrack)
    (hm : l.Pairwise (fun a b =>
      b.timestamps.length < a.timestamps.length ∨
        (a.timestamps.length = b.timestamps.length ∧ C a b)))
    (hx : ∀ u ∈ l, C x u) :
    (insertTrackDesc x l).Pairwise (fun a b =>
      b.timestamps.length < a.timestamps.length ∨
        (a.timestamps.length = b.timestamps.length ∧ C a b)) := by
  induction l with
  | nil => simp [insertTrackDesc]
  | cons y ys ih =>
    rcases List.pairwise_cons.mp hm with ⟨hy, hys⟩
    simp only [insertTrackDesc]
    by_cases hc : x.timestamps.length < y.timestamps.length
    · simp only [hc, if_true]
      refine List.pairwise_cons.mpr ⟨?_, ih hys (fun u hu => hx u (List.mem_cons_of_mem y hu))⟩
      intro z hz
      rcases List.mem_cons.mp ((insertTrackDesc_perm x ys).mem_iff.mp hz) with hzx | hzys
      · subst hzx
        exact Or.inl hc
      · exact hy z hzys
    · simp only [hc, if_false]
      refine List.pairwise_cons.mpr ⟨?_, hm⟩
      intro z hz
      have hyx : y.timestamps.length ≤ x.timestamps.length := Nat.le_of_not_lt hc
      rcases List.mem_cons.mp hz with rfl | hzys
      · rcases Nat.lt_or_ge z.timestamps.length x.timestamps.length with h1 | h1
        · exact Or.inl h1
        · exact Or.inr ⟨by omega, hx z (List.mem_cons_self z ys)⟩
      · rcases Nat.lt_or_ge z.timestamps.length x.timestamps.length with h1 | h1
        · exact Or.inl h1
        · rcases hy z hzys with hlt | ⟨heq, _⟩
          · exact absurd h1 (by omega)
          · exact Or.inr ⟨by omega, hx z (List.mem_cons_of_mem y hzys)⟩

theorem sortTracksDesc_pairwise {C : OutputTrack → OutputTrack → Prop}
    (l : List OutputTrack) (hl : l.Pairwise C) :
    (sortTracksDesc l).Pairwise (fun a b =>
      b.timestamps.length < a.timestamps.length ∨
        (a.timestamps.length = b.timestamps.length ∧ C a b)) := by
  induction l with
  | nil => simp [sortTracksDesc]
  | cons x xs ih =>
    rcases List.pairwise_cons.mp hl with ⟨hx, hxs⟩
    exact insertTrackDesc_pairwise x (sortTracksDesc xs) (ih hxs)
      (fun u hu => hx u (mem_sortTracksDesc.mp hu))

/-! ## Deduplication lemmas -/

theorem dedupGo_sublist (seen : List String) (l : List OutputTrack) :
    List.Sublist (dedupGo seen l) l := by
  induction l generalizing seen with
  | nil => simp [dedupGo]
  | cons t ts ih =>
    simp only [dedupGo]
    by_cases h : keyOf t ∈ seen
    · rw [if_pos h]
      exact (ih seen).cons t
    · rw [if_neg h]
      exact (ih _).cons₂ t

theorem mem_dedupGo_not_seen {seen : List String} {l : List OutputTrack} {t : OutputTrack}
    (h : t ∈ dedupGo seen l) : keyOf t ∉ seen := by
  induction l generalizing seen with
  | nil => simp [dedupGo] at h
  | cons u us ih =>
    simp only [dedupGo] at h
    by_cases hu : keyOf u ∈ seen
    · rw [if_pos hu] at h
      exact ih h
    · rw [if_neg hu] at h
      rcases List.mem_cons.mp h with rfl | h2
      · exact hu
      · intro hmem
        exact (ih h2) (List.mem_cons_of_mem _ hmem)

theorem dedupGo_first {C : OutputTrack → OutputTrack → Prop} :
    ∀ {seen : List String} {l : List OutputTrack}, l.Pairwise C →
      ∀ t ∈ dedupGo seen l, ∀ u ∈ l, keyOf u = keyOf t → t = u ∨ C t u := by
  intro seen l
  induction l generalizing seen with
  | nil =>
    intro _ t ht
    simp [dedupGo] at ht
  | cons v vs ih =>
    intro hp t ht u hu hk
    rcases List.pairwise_cons.mp hp with ⟨hv, hvs⟩
    simp only [dedupGo] at ht
    by_cases hvseen : keyOf v ∈ seen
    · rw [if_pos hvseen] at ht
      rcases List.mem_cons.mp hu with rfl | hu2
      · have : keyOf t ∈ seen := by
          rw [← hk]
          exact hvseen
        exact absurd this (mem_dedupGo_not_seen ht)
      · exact ih hvs t ht u hu2 hk
    · rw [if_neg hvseen] at ht
      rcases List.mem_cons.mp ht with rfl | ht2
      · rcases List.mem_cons.mp hu with rfl | hu2
        · exact Or.inl rfl
        · exact Or.inr (hv u hu2)
      · have hnt : keyOf t ∉ keyOf v :: seen := mem_dedupGo_not_seen ht2
        rcases List.mem_cons.mp hu with rfl | hu2
        · exact absurd (List.mem_cons.mpr (Or.inl hk.symm)) hnt
        · exact ih hvs t ht2 u hu2 hk

theorem dedupGo_keys_pairwise (seen : List String) (l : List OutputTrack) :
    (dedupGo seen l).Pairwise (fun a b => keyOf a ≠ keyOf b) := by
  induction l generalizing seen with
  | nil => simp [dedupGo]
  | cons v vs ih =>
    simp only [dedupGo]
    by_cases hvseen : keyOf v ∈ seen
    · rw [if_pos hvseen]
      exact ih seen
    · rw [if_neg hvseen]
      refine List.pairwise_cons.mpr ⟨?_, ih _⟩
      intro b hb heq
      exact (mem_dedupGo_not_seen hb) (List.mem_cons.mpr (Or.inl heq.symm))

/-! ## findIdx helpers -/

theorem findIdx_append_left {α : Type} {p : α → Bool} {l₁ : List α} (l₂ : List α)
    (h : l₁.findIdx p < l₁.length) : (l₁ ++ l₂).findIdx p = l₁.findIdx p := by
  induction l₁ with
  | nil => simp at h
  | cons a l ih =>
    by_cases hp : p a = true
    · simp [List.findIdx_cons, hp]
    · have hp' : p a = false := by simpa using hp
      rw [List.findIdx_cons] at h
      rw [List.cons_append, List.findIdx_cons, List.findIdx_cons]
      simp only [hp', cond_false, List.length_cons] at h ⊢
      rw [ih (by omega)]

theorem findIdx_append_right {α : Type} {p : α → Bool} {l₁ : List α} (l₂ : List α)
    (h : ∀ x ∈ l₁, p x = false) : (l₁ ++ l₂).findIdx p = l₁.length + l₂.findIdx p := by
  induction l₁ with
  | nil => simp
  | cons a l ih =>
    have ha : p a = false := h a (List.mem_cons_self a l)
    rw [List.cons_append, List.findIdx_cons]
    simp only [ha, cond_false, List.length_cons]
    rw [ih (fun x hx => h x (List.mem_cons_of_mem a hx))]
    omega

/-! ## Track-map machinery -/

theorem aggregate_append (events : List SpotifyTrack) (e : SpotifyTrack) :
    aggregate (events ++ [e]) = addEvent (aggregate events) e := by
  simp [aggregate, List.foldl_append]

theorem pushTs_keys (u ts : String) (m : List (String × OutputTrack)) :
    (pushTs u ts m).map Prod.fst = m.map Prod.fst := by
  induction m with
  | nil => rfl
  | cons p m ih =>
    rcases p with ⟨k, t⟩
    simp only [pushTs]
    by_cases h : k = u
    · rw [if_pos h]
      simp
    · rw [if_neg h]
      simp [ih]

theorem lookupUri_pushTs_self (u ts : String) (m : List (String × OutputTrack)) :
    lookupUri (pushTs u ts m) u =
      (lookupUri m u).map (fun t => { t with timestamps := t.timestamps ++ [ts] }) := by
  induction m with
  | nil => rfl
  | cons p m ih =>
    rcases p with ⟨k, t⟩
    simp only [pushTs]
    by_cases h : k = u
    · rw [if_pos h]
      simp [lookupUri, h]
    · rw [if_neg h]
      simp only [lookupUri]
      rw [if_neg h, if_neg h]
      exact ih

theorem lookupUri_pushTs_other {u v : String} (hne : v ≠ u) (ts : String)
    (m : List (String × OutputTrack)) :
    lookupUri (pushTs u ts m) v = lookupUri m v := by
  induction m with
  | nil => rfl
  | cons p m ih =>
    rcases p with ⟨k, t⟩
    simp only [pushTs]
    by_cases h : k = u
    · rw [if_pos h]
      have hkv : ¬ k = v := by
        subst h
        exact fun hkv => hne hkv.symm
      simp only [lookupUri]
      rw [if_neg hkv, if_neg hkv]
    · rw [if_neg h]
      simp only [lookupUri]
      by_cases hkv : k = v
      · rw [if_pos hkv, if_pos hkv]
      · rw [if_neg hkv, if_neg hkv]
        exact ih

theorem lookupUri_append (m₁ m₂ : List (String × OutputTrack)) (v : String) :
    lookupUri (m₁ ++ m₂) v = (lookupUri m₁ v).or (lookupUri m₂ v) := by
  induction m₁ with
  | nil => simp [lookupUri, Option.none_or]
  | cons p m ih =>
    rcases p with ⟨k, t⟩
    simp only [List.cons_append, lookupUri]
    by_cases h : k = v
    · rw [if_pos h, if_pos h]
      rfl
    · rw [if_neg h, if_neg h]
      exact ih

theorem lookupUri_isSome_iff (m : List (String × OutputTrack)) (u : String) :
    (lookupUri m u).isSome = true ↔ u ∈ m.map Prod.fst := by
  induction m with
  | nil => simp [lookupUri]
  | cons p m ih =>
    rcases p with ⟨k, t⟩
    simp only [lookupUri, List.map_cons, List.mem_cons]
    by_cases h : k = u
    · rw [if_pos h]
      simp [h]
    · rw [if_neg h]
      rw [ih]
      constructor
      · exact Or.inr
      · rintro (h1 | h2)
        · exact absurd h1.symm h
        · exact h2

theorem mem_pushTs {u ts : String} {m : List (String × OutputTrack)} {p : String × OutputTrack}
    (h : p ∈ pushTs u ts m) :
    ∃ q ∈ m, p.1 = q.1 ∧
      (p.2 = q.2 ∨ p.2 = { q.2 with timestamps := q.2.timestamps ++ [ts] }) := by
  induction m with
  | nil => simp [pushTs] at h
  | cons q0 m ih =>
    rcases q0 with ⟨k, t⟩
    simp only [pushTs] at h
    by_cases hk : k = u
    · rw [if_pos hk] at h
      rcases List.mem_cons.mp h with rfl | h2
      · exact ⟨(k, t), List.mem_cons_self _ _, rfl, Or.inr rfl⟩
      · exact ⟨p, List.mem_cons_of_mem _ h2, rfl, Or.inl rfl⟩
    · rw [if_neg hk] at h
      rcases List.mem_cons.mp h with rfl | h2
      · exact ⟨(k, t), List.mem_cons_self _ _, rfl, Or.inl rfl⟩
      · rcases ih h2 with ⟨q, hq, h1, h2'⟩
        exact ⟨q, List.mem_cons_of_mem _ hq, h1, h2'⟩

/-! ## Aggregation invariants -/

theorem lookupUri_aggregate_none {events : List SpotifyTrack} {u : String}
    (h : lookupUri (aggregate events) u = none) : ∀ e ∈ events, uriOf e ≠ some u := by
  induction events using List.reverseRecOn with
  | nil => simp
  | append_singleton evs e ih =>
    rw [aggregate_append] at h
    intro x hx
    cases huri : uriOf e with
    | none =>
      simp only [addEvent, huri] at h
      rcases List.mem_append.mp hx with h1 | h2
      · exact ih h x h1
      · rw [List.mem_singleton.mp h2, huri]
        simp
    | some v =>
      simp only [addEvent, huri] at h
      by_cases hs : (lookupUri (aggregate evs) v).isSome = true
      · rw [if_pos hs] at h
        by_cases huv : u = v
        · subst huv
          rw [lookupUri_pushTs_self] at h
          rw [Option.map_eq_none'] at h
          rw [h] at hs
          simp at hs
        · rw [lookupUri_pushTs_other huv] at h
          rcases List.mem_append.mp hx with h1 | h2
          · exact ih h x h1
          · rw [List.mem_singleton.mp h2, huri]
            intro hh
            exact huv (Option.some.inj hh).symm
      · rw [if_neg hs] at h
        rw [lookupUri_append] at h
        cases hA : lookupUri (aggregate evs) u with
        | some t0 =>
          rw [hA] at h
          simp [Option.or] at h
        | none =>
          rw [hA] at h
          simp only [Option.none_or, lookupUri] at h
          by_cases hvu : v = u
          · rw [if_pos hvu] at h
            simp at h
          · rcases List.mem_append.mp hx with h1 | h2
            · exact ih hA x h1
            · rw [List.mem_singleton.mp h2, huri]
              intro hh
              exact hvu (Option.some.inj hh)

theorem filter_uri_append_false {evs : List SpotifyTrack} {e : SpotifyTrack} {u : String}
    (h : uriOf e ≠ some u) :
    (evs ++ [e]).filter (fun x => decide (uriOf x = some u)) =
      evs.filter (fun x => decide (uriOf x = some u)) := by
  rw [List.filter_append]
  simp [h]

theorem filter_uri_append_true {evs : List SpotifyTrack} {e : SpotifyTrack} {u : String}
    (h : uriOf e = some u) :
    (evs ++ [e]).filter (fun x => decide (uriOf x = some u)) =
      evs.filter (fun x => decide (uriOf x = some u)) ++ [e] := by
  rw [List.filter_append]
  simp [h]

theorem find_uri_append_false {evs : List SpotifyTrack} {e : SpotifyTrack} {u : String}
    (h : uriOf e ≠ some u) :
    (evs ++ [e]).find? (fun x => decide (uriOf x = some u)) =
      evs.find? (fun x => decide (uriOf x = some u)) := by
  rw [List.find?_append]
  have he : [e].find? (fun x => decide (uriOf x = some u)) = none := by
    simp [List.find?_cons, h]
  rw [he, Option.or_none]

theorem find_uri_append_of_found {evs : List SpotifyTrack} {e : SpotifyTrack} {u : String}
    {e0 : SpotifyTrack}
    (h : evs.find? (fun x => decide (uriOf x = some u)) = some e0) :
    (evs ++ [e]).find? (fun x => decide (uriOf x = some u)) = some e0 := by
  rw [List.find?_append, h]
  rfl

theorem lookupUri_aggregate_some {events : List SpotifyTrack} {u : String} {t : OutputTrack}
    (h : lookupUri (aggregate events) u = some t) :
    t.spotify_track_uri = u ∧
    t.timestamps = (events.filter (fun x => decide (uriOf x = some u))).map (fun x => x.ts) ∧
    ∃ e0, events.find? (fun x => decide (uriOf x = some u)) = some e0 ∧
      t.track_name = e0.master_metadata_track_name ∧
      t.artist_name = e0.master_metadata_album_artist_name ∧
      t.album_name = e0.master_metadata_album_album_name := by
  induction events using List.reverseRecOn generalizing t with
  | nil => simp [aggregate, lookupUri] at h
  | append_singleton evs e ih =>
    rw [aggregate_append] at h
    cases huri : uriOf e with
    | none =>
      simp only [addEvent, huri] at h
      have hne : uriOf e ≠ some u := by
        rw [huri]
        simp
      rcases ih h with ⟨h1, h2, e0, h3, h4, h5, h6⟩
      exact ⟨h1, by rw [filter_uri_append_false hne]; exact h2,
        e0, by rw [find_uri_append_false hne]; exact h3, h4, h5, h6⟩
    | some v =>
      simp only [addEvent, huri] at h
      by_cases hs : (lookupUri (aggregate evs) v).isSome = true
      · rw [if_pos hs] at h
        by_cases huv : u = v
        · subst huv
          rw [lookupUri_pushTs_self, Option.map_eq_some'] at h
          rcases h with ⟨t0, ht0, rfl⟩
          rcases ih ht0 with ⟨h1, h2, e0, h3, h4, h5, h6⟩
          refine ⟨h1, ?_, e0, find_uri_append_of_found h3, h4, h5, h6⟩
          show t0.timestamps ++ [e.ts] = _
          rw [filter_uri_append_true huri, List.map_append, ← h2]
          rfl
        · rw [lookupUri_pushTs_other huv] at h
          have hne : uriOf e ≠ some u := by
            rw [huri]
            intro hh
            exact huv (Option.some.inj hh).symm
          rcases ih h with ⟨h1, h2, e0, h3, h4, h5, h6⟩
          exact ⟨h1, by rw [filter_uri_append_false hne]; exact h2,
            e0, by rw [find_uri_append_false hne]; exact h3, h4, h5, h6⟩
      · rw [if_neg hs] at h
        rw [lookupUri_append] at h
        cases hA : lookupUri (aggregate evs) u with
        | some t0 =>
          rw [hA] at h
          have h' : some t0 = some t := h
          obtain rfl : t0 = t := Option.some.inj h'
          have hvu : v ≠ u := by
            intro hh
            rw [hh] at hs
            rw [hA] at hs
            simp at hs
          have hne : uriOf e ≠ some u := by
            rw [huri]
            intro hh
            exact hvu (Option.some.inj hh)
          rcases ih hA with ⟨h1, h2, e0, h3, h4, h5, h6⟩
          exact ⟨h1, by rw [filter_uri_append_false hne]; exact h2,
            e0, by rw [find_uri_append_false hne]; exact h3, h4, h5, h6⟩
        | none =>
          rw [hA, Option.none_or] at h
          simp only [lookupUri] at h
          by_cases hvu : v = u
          · rw [if_pos hvu] at h
            subst hvu
            have ht : newTrack v e = t := Option.some.inj h
            have hall : ∀ x ∈ evs, uriOf x ≠ some v := lookupUri_aggregate_none hA
            have hfilter : evs.filter (fun x => decide (uriOf x = some v)) = [] := by
              rw [List.filter_eq_nil_iff]
              intro a ha
              simp [hall a ha]
            have hfind : evs.find? (fun x => decide (uriOf x = some v)) = none := by
              rw [List.find?_eq_none]
              intro a ha
              simp [hall a ha]
            rw [← ht]
            refine ⟨rfl, ?_, e, ?_, rfl, rfl, rfl⟩
            · rw [filter_uri_append_true huri, hfilter]
              rfl
            · rw [List.find?_append, hfind, Option.none_or]
              simp [List.find?_cons, huri]
          · rw [if_neg hvu] at h
            simp at h

theorem aggregate_keys_ordered (events : List SpotifyTrack) :
    ((aggregate events).map Prod.fst).Pairwise
        (fun a b => firstUriIdx events a < firstUriIdx events b) ∧
    ∀ u ∈ (aggregate events).map Prod.fst, firstUriIdx events u < events.length := by
  induction events using List.reverseRecOn with
  | nil => simp [aggregate]
  | append_singleton evs e ih =>
    rcases ih with ⟨hpw, hbd⟩
    rw [aggregate_append]
    have hidx : ∀ u ∈ (aggregate evs).map Prod.fst,
        firstUriIdx (evs ++ [e]) u = firstUriIdx evs u := by
      intro u hu
      exact findIdx_append_left _ (hbd u hu)
    have hsame : ∀ (m : List (String × OutputTrack)),
        m.map Prod.fst = (aggregate evs).map Prod.fst →
        (m.map Prod.fst).Pairwise
            (fun a b => firstUriIdx (evs ++ [e]) a < firstUriIdx (evs ++ [e]) b) ∧
        ∀ u ∈ m.map Prod.fst, firstUriIdx (evs ++ [e]) u < (evs ++ [e]).length := by
      intro m hm
      rw [hm]
      constructor
      · refine List.Pairwise.imp_of_mem ?_ hpw
        intro a b ha hb hab
        rw [hidx a ha, hidx b hb]
        exact hab
      · intro u hu
        rw [hidx u hu]
        have := hbd u hu
        rw [List.length_append]
        omega
    cases huri : uriOf e with
    | none =>
      simp only [addEvent, huri]
      exact hsame _ rfl
    | some v =>
      simp only [addEvent, huri]
      by_cases hs : (lookupUri (aggregate evs) v).isSome = true
      · rw [if_pos hs]
        exact hsame _ (pushTs_keys v e.ts (aggregate evs))
      · rw [if_neg hs]
        have hvnot : ∀ x ∈ evs, uriOf x ≠ some v :=
          lookupUri_aggregate_none (Option.not_isSome_iff_eq_none.mp hs)
        have hvidx : firstUriIdx (evs ++ [e]) v = evs.length := by
          show (evs ++ [e]).findIdx _ = evs.length
          rw [findIdx_append_right]
          · simp [List.findIdx_cons, huri]
          · intro x hx
            simp [hvnot x hx]
        rw [List.map_append]
        constructor
        · rw [List.pairwise_append]
          refine ⟨?_, by simp, ?_⟩
          · refine List.Pairwise.imp_of_mem ?_ hpw
            intro a b ha hb hab
            rw [hidx a ha, hidx b hb]
            exact hab
          · intro a ha b hb
            have hb' : b = v := by simpa using hb
            subst hb'
            have ha' : a ∈ (aggregate evs).map Prod.fst := by simpa using ha
            rw [hidx a ha', hvidx]
            exact hbd a ha'
        · intro u hu
          rcases List.mem_append.mp hu with h1 | h2
          · rw [hidx u h1]
            have := hbd u h1
            rw [List.length_append]
            omega
          · have hu' : u = v := by simpa using h2
            subst hu'
            rw [hvidx, List.length_append]
            simp

theorem mem_aggregate_entry (events : List SpotifyTrack) :
    ∀ p ∈ aggregate events, p.2.spotify_track_uri = p.1 ∧ p.2.timestamps ≠ [] := by
  induction events using List.reverseRecOn with
  | nil =>
    intro p h
    simp [aggregate] at h
  | append_singleton evs e ih =>
    intro p h
    rw [aggregate_append] at h
    cases huri : uriOf e with
    | none =>
      simp only [addEvent, huri] at h
      exact ih p h
    | some v =>
      simp only [addEvent, huri] at h
      by_cases hs : (lookupUri (aggregate evs) v).isSome = true
      · rw [if_pos hs] at h
        rcases mem_pushTs h with ⟨q, hq, h1, h2⟩
        rcases ih q hq with ⟨hu, hne⟩
        constructor
        · rcases h2 with h2 | h2
          · rw [h2, h1]
            exact hu
          · rw [h2]
            show q.2.spotify_track_uri = p.1
            rw [h1]
            exact hu
        · rcases h2 with h2 | h2
          · rw [h2]
            exact hne
          · rw [h2]
            show q.2.timestamps ++ [e.ts] ≠ []
            simp
      · rw [if_neg hs] at h
        rcases List.mem_append.mp h with h1 | h2
        · exact ih p h1
        · have : p = (v, newTrack v e) := by simpa using h2
          subst this
          exact ⟨rfl, by simp [newTrack]⟩

theorem aggregate_keys_nodup (events : List SpotifyTrack) :
    ((aggregate events).map Prod.fst).Nodup :=
  (aggregate_keys_ordered events).1.imp
    (fun hlt heq => absurd (heq ▸ hlt) (lt_irrefl _))

theorem mem_iff_lookupUri {m : List (String × OutputTrack)} (hnd : (m.map Prod.fst).Nodup)
    {k : String} {t : OutputTrack} : (k, t) ∈ m ↔ lookupUri m k = some t := by
  induction m with
  | nil => simp [lookupUri]
  | cons q m ih =>
    rcases q with ⟨k0, t0⟩
    simp only [List.map_cons, List.nodup_cons] at hnd
    rcases hnd with ⟨hk0, hnd⟩
    simp only [lookupUri, List.mem_cons]
    by_cases h : k0 = k
    · subst h
      rw [if_pos rfl]
      constructor
      · rintro (heq | hmem)
        · rw [(Prod.mk.injEq _ _ _ _).mp heq.symm |>.2]
        · exact absurd (List.mem_map_of_mem Prod.fst hmem) hk0
      · intro hsome
        exact Or.inl (by rw [Option.some.inj hsome])
    · rw [if_neg h]
      rw [← ih hnd]
      constructor
      · rintro (heq | hmem)
        · exact absurd ((Prod.mk.injEq _ _ _ _).mp heq).1.symm h
        · exact hmem
      · exact Or.inr

theorem mem_buildOutput {m : List (String × OutputTrack)} {t : OutputTrack} :
    t ∈ buildOutput m ↔
      ∃ p ∈ m, t = { p.2 with timestamps := sortStringsAsc p.2.timestamps } := by
  simp only [buildOutput, List.mem_map]
  constructor
  · rintro ⟨p, hp, rfl⟩
    exact ⟨p, hp, rfl⟩
  · rintro ⟨p, hp, rfl⟩
    exact ⟨p, hp, rfl⟩

theorem buildOutput_pairwise_idx (events : List SpotifyTrack) :
    (buildOutput (aggregate events)).Pairwise (fun a b =>
      firstUriIdx events a.spotify_track_uri < firstUriIdx events b.spotify_track_uri) := by
  have hk := (aggregate_keys_ordered events).1
  rw [List.pairwise_map] at hk
  unfold buildOutput
  rw [List.pairwise_map]
  refine List.Pairwise.imp_of_mem ?_ hk
  intro p q hp hq h
  have h1 := (mem_aggregate_entry events p hp).1
  have h2 := (mem_aggregate_entry events q hq).1
  show firstUriIdx events p.2.spotify_track_uri < firstUriIdx events q.2.spotify_track_uri
  rw [h1, h2]
  exact h

/-! ## C1: filename construction versus the scanner patterns -/

/-- C1: the claim states that building a filename with
`generateFilename` and re-extracting with the scanner patterns recovers
the same catalog id and source track id.  At the failing input (title
"T", artist "A", catalog id "abc", track id "xyz", extension "opus")
the track id is recovered, but the greedy `[^.]+` of
`/__ytId__([^.]+)\./` runs through the underscores of the trailing
`___trackId_` segment, so the extracted catalog id is
"abc___trackId_xyz", not "abc".  Consequently the skip check
`existingYtIds.has(song.id)` in `processSpotifyHistory` can never see a
previously written catalog id, contradicting the documented purpose of
`getExistingYtIds`. -/
theorem c1_filename_extraction_at_failing_input :
    extractYtIdFromName (generateFilename "T" "A" "abc" "xyz" ++ "." ++ "opus")
      = some "abc___trackId_xyz"
  ∧ extractTrackIdFromName (generateFilename "T" "A" "abc" "xyz" ++ "." ++ "opus")
      = some "xyz"
  ∧ some "abc___trackId_xyz" ≠ some "abc" := by decide

/-! ## C10: the dedup key conflates distinct (artist, track) pairs -/

/-- C10: the Deduplicator keys records by the single string
artist|track with null rendered as "null"; the claimed collisions are
real: (artist a|b, title c) collides with (artist a, title b|c), and
two different tracks with null artist and null name collide on
null|null, and in both cases only the first of the pair survives. -/
theorem c10_dedup_key_collisions :
    deduplicateTracks [collideA, collideB] = [collideA]
  ∧ keyOf collideA = keyOf collideB
  ∧ (collideA.artist_name, collideA.track_name) ≠ (collideB.artist_name, collideB.track_name)
  ∧ deduplicateTracks [nullNamesA, nullNamesB] = [nullNamesA]
  ∧ keyOf nullNamesA = "null|null"
  ∧ nullNamesA ≠ nullNamesB := by decide

/-! ## C2: which record survives deduplication -/

/-- C2 counterexample: with events [A once, B twice] where A and B share
the (artist, track) metadata, the aggregation (before dedup) holds A
with one play and B with two; the final parser output keeps only A, the
first-encountered record, whose play count 1 is not the highest play
count of its key. -/
theorem c2_survivor_counterexample :
    (buildOutput (aggregate [evA1, evB1, evB2])).map
        (fun t => (t.spotify_track_uri, t.timestamps.length))
      = [("spotify:track:A", 1), ("spotify:track:B", 2)]
  ∧ (buildOutput (aggregate [evA1, evB1, evB2])).map keyOf = ["X|Y", "X|Y"]
  ∧ (parseTracksCore [evA1, evB1, evB2]).map
        (fun t => (t.spotify_track_uri, t.timestamps.length))
      = [("spotify:track:A", 1)] := by decide

/-! ## C3: placement of the randomized inter-item delay -/

/-- C3 counterexample: two tracks, the first failing for missing
metadata.  The claim requires a randomized delay after the first item
regardless of outcome; the trace shows the first item is Failed with no
wait after it (both items fail, no wait anywhere). -/
theorem c3_delay_counterexample :
    processSpotifyHistory cfgEx [] searchNoResult downloadOk (fun _ => 0) [trNoMeta, trMeta]
      = [⟨Outcome.failed, false, none⟩, ⟨Outcome.failed, false, none⟩] := by decide

/-! ## C6: when the fatal no-history-files error fires -/

/-- C6 counterexample: a directory containing exactly one file that
matches the Streaming_History_Audio_*.json convention but fails to
parse.  The claim says the fatal error fires only when no matching file
exists; the code still throws it, because `filesProcessed` counts only
successfully parsed files. -/
theorem c6_fatal_error_counterexample :
    isHistoryFile badHistoryFile = true
  ∧ parseSpotifyStreamingHistory [badHistoryFile] = Except.error noHistoryFilesMsg :=
  ⟨rfl, rfl⟩

/-! ## C9: non-empty timestamps invariant -/

/-- C9 counterexample: the alternate loader checks only that the top
level is an array, so a record with an empty timestamp sequence passes
through it unchanged, and survives the downstream filter and dedup
steps on its way to the orchestrator. -/
theorem c9_loader_empty_timestamps :
    parseSpotifyHistoryFile (HistoryFileJson.arr [emptyTsTrack]) = Except.ok [emptyTsTrack]
  ∧ deduplicateTracks (filterNewTracks [emptyTsTrack] []) = [emptyTsTrack]
  ∧ emptyTsTrack.timestamps = [] :=
  ⟨rfl, rfl, rfl⟩

/-- C9 amended: the non-empty-timestamps invariant does hold for every
record emitted by the raw-history parser: every entry of the track map
is created with one timestamp and only ever grows. -/
theorem c9_history_timestamps_nonempty (events : List SpotifyTrack) :
    ∀ t ∈ parseTracksCore events, t.timestamps ≠ [] := by
  intro t ht
  have ht1 : t ∈ buildOutput (aggregate events) :=
    (dedupGo_sublist [] (buildOutput (aggregate events))).subset (mem_sortTracksDesc.mp ht)
  rcases mem_buildOutput.mp ht1 with ⟨p, hp, rfl⟩
  have hne := (mem_aggregate_entry events p hp).2
  show sortStringsAsc p.2.timestamps ≠ []
  intro hnil
  have hlen := (sortStringsAsc_perm p.2.timestamps).length_eq
  rw [hnil] at hlen
  exact hne (List.eq_nil_of_length_eq_zero hlen.symm)

/-- C9 witness: the amended invariant evaluated on the three-event
fixture. -/
theorem c9_history_timestamps_nonempty_witness : aggTrackA.timestamps ≠ [] :=
  c9_history_timestamps_nonempty [evA1, evB1, evB2] aggTrackA (by decide)

/-! ## C7: ordering of the parser output -/

/-- C7: the parser output sequence is sorted by descending
timestamp-count, and any two records with the same count appear in the
order in which their identities were first encountered in the input
(strictly increasing first-encounter positions). -/
theorem c7_output_ordering (events : List SpotifyTrack) :
    (parseTracksCore events).Pairwise (fun a b =>
      b.timestamps.length ≤ a.timestamps.length ∧
      (a.timestamps.length = b.timestamps.length →
        firstUriIdx events a.spotify_track_uri < firstUriIdx events b.spotify_track_uri)) := by
  have h1 := buildOutput_pairwise_idx events
  have h2 := List.Pairwise.sublist (dedupGo_sublist [] (buildOutput (aggregate events))) h1
  have h3 := sortTracksDesc_pairwise _ h2
  exact h3.imp (fun hS =>
    Or.elim hS
      (fun hlt => ⟨Nat.le_of_lt hlt, fun heq2 => absurd hlt (by omega)⟩)
      (fun hand => ⟨Nat.le_of_eq hand.1.symm, fun _ => hand.2⟩))

/-- C2 amended: at most one record survives per deduplication key, and
among all aggregated records sharing the survivor's key the survivor is
the one with the least first-encounter position in the input (dedup runs
before the play-count sort, so the survivor is the first-encountered
record, not the most-played one). -/
theorem c2_dedup_survivor_first_encounter (events : List SpotifyTrack) :
    (parseTracksCore events).Pairwise (fun a b => keyOf a ≠ keyOf b) ∧
    ∀ t ∈ parseTracksCore events, ∀ u ∈ buildOutput (aggregate events),
      keyOf u = keyOf t →
      firstUriIdx events t.spotify_track_uri ≤ firstUriIdx events u.spotify_track_uri := by
  constructor
  · have hd := dedupGo_keys_pairwise [] (buildOutput (aggregate events))
    have hperm := sortTracksDesc_perm (dedupGo [] (buildOutput (aggregate events)))
    exact (hperm.pairwise_iff (fun h h2 => h h2.symm)).mpr hd
  · intro t ht u hu hk
    have ht' : t ∈ dedupGo [] (buildOutput (aggregate events)) := mem_sortTracksDesc.mp ht
    rcases dedupGo_first (buildOutput_pairwise_idx events) t ht' u hu hk with rfl | hC
    · exact Nat.le_refl _
    · exact Nat.le_of_lt hC

/-- C2 witness: in the three-event fixture the survivor A (count 1) has
the smaller first-encounter position than the dropped record B, whose
key it shares. -/
theorem c2_dedup_survivor_first_encounter_witness :
    firstUriIdx [evA1, evB1, evB2] aggTrackA.spotify_track_uri ≤
      firstUriIdx [evA1, evB1, evB2] aggTrackB.spotify_track_uri :=
  (c2_dedup_survivor_first_encounter [evA1, evB1, evB2]).2 aggTrackA (by decide)
    aggTrackB (by decide) (by decide)

/-! ## C8: aggregation correctness -/

/-- C8: for every source identifier occurring in the input, the
aggregation produces a record carrying it, and every produced record has
a timestamp sequence that is an ascending reordering (duplicates kept)
of exactly the timestamps of the events with its identifier, with the
metadata fields taken from the first such event in processing order. -/
theorem c8_aggregation_correct (events : List SpotifyTrack) :
    (∀ u : String, (∃ e ∈ events, uriOf e = some u) →
        ∃ t ∈ buildOutput (aggregate events), t.spotify_track_uri = u) ∧
    (∀ t ∈ buildOutput (aggregate events),
        t.timestamps.Pairwise (fun a b => strLtB b a = false) ∧
        t.timestamps.Perm
          ((events.filter (fun e => decide (uriOf e = some t.spotify_track_uri))).map
            (fun e => e.ts)) ∧
        ∃ e0, events.find? (fun e => decide (uriOf e = some t.spotify_track_uri)) = some e0 ∧
          t.track_name = e0.master_metadata_track_name ∧
          t.artist_name = e0.master_metadata_album_artist_name ∧
          t.album_name = e0.master_metadata_album_album_name) := by
  constructor
  · rintro u ⟨e, he, hue⟩
    cases hA : lookupUri (aggregate events) u with
    | none => exact absurd hue (lookupUri_aggregate_none hA e he)
    | some t0 =>
      refine ⟨{ t0 with timestamps := sortStringsAsc t0.timestamps }, ?_, ?_⟩
      · exact mem_buildOutput.mpr
          ⟨(u, t0), (mem_iff_lookupUri (aggregate_keys_nodup events)).mpr hA, rfl⟩
      · show t0.spotify_track_uri = u
        exact (lookupUri_aggregate_some hA).1
  · intro t ht
    rcases mem_buildOutput.mp ht with ⟨p, hp, rfl⟩
    have hpuri : p.2.spotify_track_uri = p.1 := (mem_aggregate_entry events p hp).1
    have hlk : lookupUri (aggregate events) p.1 = some p.2 :=
      (mem_iff_lookupUri (aggregate_keys_nodup events)).mp hp
    rcases lookupUri_aggregate_some hlk with ⟨h1, h2, e0, h3, h4, h5, h6⟩
    have hproj : ({ p.2 with timestamps := sortStringsAsc p.2.timestamps } :
        OutputTrack).spotify_track_uri = p.2.spotify_track_uri := rfl
    refine ⟨sortStringsAsc_pairwise p.2.timestamps, ?_, e0, ?_, h4, h5, h6⟩
    · show (sortStringsAsc p.2.timestamps).Perm _
      rw [hproj, hpuri, ← h2]
      exact sortStringsAsc_perm p.2.timestamps
    · rw [hproj, hpuri]
      exact h3

/-! ## C4: exact-then-fallback selection -/

theorem find_of_first {α : Type} {p : α → Bool} {l : List α} {i : Nat} (h : i < l.length)
    (hp : p (l.get ⟨i, h⟩) = true)
    (hbefore : ∀ j (hj : j < i), p (l.get ⟨j, Nat.lt_trans hj h⟩) = false) :
    l.find? p = some (l.get ⟨i, h⟩) := by
  induction l generalizing i with
  | nil => simp at h
  | cons a l ih =>
    cases i with
    | zero =>
      rw [List.find?_cons]
      have ha : p a = true := hp
      simp [ha]
    | succ i =>
      have ha : p a = false := hbefore 0 (Nat.succ_pos i)
      rw [List.find?_cons]
      simp only [ha, cond_false]
      exact ih (Nat.lt_of_succ_lt_succ h) hp
        (fun j hj => hbefore (j + 1) (Nat.succ_lt_succ hj))

theorem hasUsableFallback_iff (s : YTMusicSong) :
    hasUsableFallback s = true ↔ HasTitleAndArtist s := by
  unfold hasUsableFallback HasTitleAndArtist
  cases htitle : s.title with
  | none => simp
  | some t =>
    cases harts : s.artists with
    | none => simp
    | some arts =>
      cases arts with
      | nil => simp
      | cons a as =>
        constructor
        · intro hb
          have h1 : ¬ t = "" := by
            rw [Bool.and_eq_true] at hb
            rcases hb with ⟨hb1, _⟩
            intro heq
            subst heq
            simp at hb1
          exact ⟨⟨t, rfl, h1⟩, a :: as, rfl, by simp⟩
        · rintro ⟨⟨t2, ht2, h1⟩, _⟩
          obtain rfl : t = t2 := Option.some.inj ht2
          rw [Bool.and_eq_true]
          exact ⟨by simp [h1], rfl⟩

theorem isExactMatch_iff (targetTitle targetArtist : String) (s : YTMusicSong) :
    isExactMatch (norm targetTitle) (norm targetArtist) s = true ↔
      ExactFor targetTitle targetArtist s := by
  unfold isExactMatch ExactFor
  cases htitle : s.title with
  | none => simp
  | some t =>
    cases harts : s.artists with
    | none => simp
    | some arts =>
      simp only [Bool.and_eq_true, beq_iff_eq, List.any_eq_true]
      constructor
      · rintro ⟨h1, a, ha, h2⟩
        exact ⟨⟨t, rfl, h1⟩, arts, rfl, a, ha, h2⟩
      · rintro ⟨⟨t2, ht2, h1⟩, arts2, harts2, a, ha, h2⟩
        obtain rfl : t = t2 := Option.some.inj ht2
        obtain rfl : arts = arts2 := Option.some.inj harts2
        exact ⟨h1, a, ha, h2⟩

/-- C4: for a non-blank target pair, the matcher normalises by
lower-casing and trimming; the exact-match test is as documented; when
some candidate matches exactly, the first such candidate in result
order is selected; when none does, the first candidate of the list is
selected provided it has a (truthy) title and at least one artist, and
null is returned otherwise (including for an empty result list). -/
theorem c4_select_best_match_spec (songs : List YTMusicSong)
    (targetTitle targetArtist : String)
    (hT : jsTrim targetTitle ≠ "") (hA : jsTrim targetArtist ≠ "") :
    (∀ s, isExactMatch (norm targetTitle) (norm targetArtist) s = true ↔
      ExactFor targetTitle targetArtist s) ∧
    (∀ s, hasUsableFallback s = true ↔ HasTitleAndArtist s) ∧
    (∀ i (h : i < songs.length),
      isExactMatch (norm targetTitle) (norm targetArtist) (songs.get ⟨i, h⟩) = true →
      (∀ j (hj : j < i),
        isExactMatch (norm targetTitle) (norm targetArtist)
          (songs.get ⟨j, Nat.lt_trans hj h⟩) = false) →
      selectBestMatch songs targetTitle targetArtist = some (songs.get ⟨i, h⟩)) ∧
    ((∀ s ∈ songs, isExactMatch (norm targetTitle) (norm targetArtist) s = false) →
      (songs = [] → selectBestMatch songs targetTitle targetArtist = none) ∧
      (∀ f rest, songs = f :: rest →
        (hasUsableFallback f = true →
          selectBestMatch songs targetTitle targetArtist = some f) ∧
        (hasUsableFallback f = false →
          selectBestMatch songs targetTitle targetArtist = none))) := by
  refine ⟨isExactMatch_iff targetTitle targetArtist, hasUsableFallback_iff, ?_, ?_⟩
  · intro i h hp hbefore
    unfold selectBestMatch
    rw [find_of_first h hp hbefore]
  · intro hall
    have hfind : songs.find? (isExactMatch (norm targetTitle) (norm targetArtist)) = none :=
      List.find?_eq_none.mpr (fun x hx => by simp [hall x hx])
    constructor
    · intro hnil
      subst hnil
      rfl
    · intro f rest hcons
      subst hcons
      constructor
      · intro hTA
        unfold selectBestMatch
        rw [hfind]
        simp [hTA]
      · intro hTA
        unfold selectBestMatch
        rw [hfind]
        simp [hTA]

/-- C4 witness: the two-candidate scenario of the component
documentation; the second candidate is the exact match and wins over
the first. -/
theorem c4_select_best_match_witness :
    selectBestMatch [songOtherArtist, songExactArtist] "Song" "Artist" = some songExactArtist := by
  have h : 1 < ([songOtherArtist, songExactArtist] : List YTMusicSong).length := by decide
  have hsel := (c4_select_best_match_spec [songOtherArtist, songExactArtist] "Song" "Artist"
      (by decide) (by decide)).2.2.1 1 h
    (by
      show isExactMatch (norm "Song") (norm "Artist") songExactArtist = true
      decide)
    (fun j hj => by
      have hj0 : j = 0 := by omega
      subst hj0
      show isExactMatch (norm "Song") (norm "Artist") songOtherArtist = false
      decide)
  exact hsel

/-! ## C5: exclusion abandons the match -/

/-- C5: if the selected candidate exceeds the duration ceiling or its
title or any artist name contains (case-insensitively) a configured
blacklisted keyword, the matcher returns null for the track; it never
falls back to another candidate.  The hypothesis that the configured
keywords are lower-case-invariant reflects the CLI parsing, which
lower-cases every keyword before storing it. -/
theorem c5_exclusion_abandons_match (cfg : Config) (results : List YTMusicSong)
    (title artist : String) (s : YTMusicSong)
    (hsel : selectBestMatch results title artist = some s)
    (hkw : ∀ kw ∈ cfg.blacklistedKeywords, jsLower kw = kw)
    (hbad : (∃ d, s.duration = some d ∧ cfg.maxDuration < d.seconds) ∨
      (∃ kw ∈ cfg.blacklistedKeywords,
        (∃ t, s.title = some t ∧ ContainsIgnoringCase t kw) ∨
        (∃ arts, s.artists = some arts ∧ ∃ a ∈ arts, ContainsIgnoringCase a.name kw))) :
    searchYouTubeMusic cfg results title artist = none := by
  have hskip : shouldSkipSong cfg s = true := by
    unfold shouldSkipSong
    rw [Bool.or_eq_true]
    rcases hbad with ⟨d, hd, hgt⟩ | ⟨kw, hkwmem, hcase⟩
    · left
      rw [hd]
      have hz : ¬ d.seconds = 0 := by omega
      simp only [hz, if_false]
      exact decide_eq_true hgt
    · right
      rw [List.any_eq_true]
      refine ⟨kw, hkwmem, ?_⟩
      rw [Bool.or_eq_true]
      rcases hcase with ⟨t, ht, hct⟩ | ⟨arts, harts, a, ha, hca⟩
      · left
        rw [ht]
        rw [← hkw kw hkwmem]
        exact hct
      · right
        rw [harts, List.any_eq_true]
        exact ⟨a, ha, by rw [← hkw kw hkwmem]; exact hca⟩
  unfold searchYouTubeMusic
  by_cases h1 : jsTrim title = ""
  · simp [h1]
  · by_cases h2 : jsTrim artist = ""
    · simp [h1, h2]
    · have hcond : (decide (jsTrim title = "") || decide (jsTrim artist = "")) = false := by
        simp [h1, h2]
      rw [if_neg (by rw [hcond]; exact Bool.false_ne_true)]
      have hne : results.isEmpty = false := by
        cases results with
        | nil => simp [selectBestMatch, List.find?] at hsel
        | cons f fs => rfl
      rw [if_neg (by rw [hne]; exact Bool.false_ne_true)]
      rw [hsel]
      show (if shouldSkipSong cfg s = true then none else formatSongResult s) = none
      rw [if_pos hskip]

/-- C5 witness: the only exact match lasts 500 seconds against a
420-second ceiling, and the search yields no usable match. -/
theorem c5_exclusion_abandons_match_witness :
    searchYouTubeMusic cfgEx [songTooLong] "Song" "Artist" = none :=
  c5_exclusion_abandons_match cfgEx [songTooLong] "Song" "Artist" songTooLong
    (by decide) (by simp [cfgEx])
    (Or.inl ⟨⟨"8:20", 500⟩, rfl, by decide⟩)

/-! ## C6 amended: the fatal error and per-file tolerance -/

/-- C6 amended: the fatal error fires exactly when no matching file
parses successfully (which includes the case of no matching file at
all); and a matching file that fails to parse can be inserted anywhere
in the directory without changing the result — the parser skips it and
continues with the remaining files. -/
theorem c6_error_iff_no_parsed_file (dir : List DirEntry) :
    (parseSpotifyStreamingHistory dir = Except.error noHistoryFilesMsg ↔
      ∀ e ∈ dir, isHistoryFile e = true → e.parsed = none) ∧
    (∀ pre post bad, isHistoryFile bad = true → bad.parsed = none →
      parseSpotifyStreamingHistory (pre ++ bad :: post) =
        parseSpotifyStreamingHistory (pre ++ post)) := by
  constructor
  · unfold parseSpotifyStreamingHistory
    by_cases h : (dir.filter isHistoryFile).filterMap (fun e => e.parsed) = []
    · rw [if_pos h]
      constructor
      · intro _ e he hhist
        exact List.filterMap_eq_nil_iff.mp h e (List.mem_filter.mpr ⟨he, hhist⟩)
      · intro _
        rfl
    · rw [if_neg h]
      constructor
      · intro habs
        exact absurd habs (by simp)
      · intro hall
        exfalso
        apply h
        rw [List.filterMap_eq_nil_iff]
        intro e he
        rcases List.mem_filter.mp he with ⟨h1, h2⟩
        exact hall e h1 h2
  · intro pre post bad hhist hparsed
    have key : ((pre ++ bad :: post).filter isHistoryFile).filterMap (fun e => e.parsed) =
        ((pre ++ post).filter isHistoryFile).filterMap (fun e => e.parsed) := by
      rw [List.filter_append, List.filter_append, List.filter_cons]
      simp only [hhist, if_true]
      rw [List.filterMap_append, List.filterMap_append, List.filterMap_cons]
      simp [hparsed]
    unfold parseSpotifyStreamingHistory
    rw [key]

/-- C6 witness: dropping a malformed matching file from a directory
that also holds a well-formed one leaves the parse result unchanged. -/
theorem c6_error_iff_no_parsed_file_witness :
    parseSpotifyStreamingHistory [goodHistoryFile, badHistoryFile] =
      parseSpotifyStreamingHistory [goodHistoryFile] :=
  (c6_error_iff_no_parsed_file []).2 [goodHistoryFile] [] badHistoryFile (by decide) rfl

/-! ## C3 amended: placement and size of the randomized wait -/

theorem getRandomWaitTime_range {minW maxW : Nat} {r : ℚ} (h0 : 0 ≤ r) (h1 : r < 1)
    (hmm : minW ≤ maxW) :
    (minW : Int) * 1000 ≤ getRandomWaitTime minW maxW r ∧
      getRandomWaitTime minW maxW r ≤ (maxW : Int) * 1000 ∧
      (1000 : Int) ∣ getRandomWaitTime minW maxW r := by
  unfold getRandomWaitTime
  have hspan : (0 : ℚ) < (maxW : ℚ) - (minW : ℚ) + 1 := by
    have hc : (minW : ℚ) ≤ (maxW : ℚ) := by exact_mod_cast hmm
    linarith
  have hlow : (minW : Int) ≤ ⌊r * ((maxW : ℚ) - (minW : ℚ) + 1) + (minW : ℚ)⌋ := by
    rw [Int.le_floor]
    have hnn : 0 ≤ r * ((maxW : ℚ) - (minW : ℚ) + 1) := mul_nonneg h0 (le_of_lt hspan)
    push_cast
    linarith
  have hup : ⌊r * ((maxW : ℚ) - (minW : ℚ) + 1) + (minW : ℚ)⌋ ≤ (maxW : Int) := by
    have hlt : r * ((maxW : ℚ) - (minW : ℚ) + 1) < (maxW : ℚ) - (minW : ℚ) + 1 :=
      mul_lt_of_lt_one_left hspan h1
    have hfl : ⌊r * ((maxW : ℚ) - (minW : ℚ) + 1) + (minW : ℚ)⌋ < (maxW : Int) + 1 := by
      rw [Int.floor_lt]
      push_cast
      linarith
    omega
  refine ⟨?_, ?_, ⟨⌊r * ((maxW : ℚ) - (minW : ℚ) + 1) + (minW : ℚ)⌋, ?_⟩⟩
  · have hm := mul_le_mul_of_nonneg_right hlow (by norm_num : (0 : Int) ≤ 1000)
    linarith
  · have hm := mul_le_mul_of_nonneg_right hup (by norm_num : (0 : Int) ≤ 1000)
    linarith
  · ring

theorem processSpotifyHistory_getElem (cfg : Config) (existing : List String)
    (search : String → String → Option DLSongResult)
    (download : DLSongResult → OutputTrack → Bool)
    (rands : Nat → ℚ) (tracks : List OutputTrack) (i : Nat) (tr : OutputTrack)
    (ht : tracks[i]? = some tr) :
    (processSpotifyHistory cfg existing search download rands tracks)[i]? =
      some (processTrack cfg existing search download (rands i) i tracks.length tr) := by
  unfold processSpotifyHistory
  rw [List.getElem?_map, List.getElem?_enum, ht]
  rfl

/-- C3 amended: in the orchestrator trace, item i is followed by the
randomized wait exactly when it is not the last item and it reached the
download attempt (metadata present, match found, id not already
downloaded); items that fail earlier or are skipped are not followed by
the wait; and when a wait happens its length is the embedded
getRandomWaitTime draw, a whole number of seconds within the configured
inclusive range for any random draw in the unit interval. -/
theorem c3_wait_placement (cfg : Config) (existing : List String)
    (search : String → String → Option DLSongResult)
    (download : DLSongResult → OutputTrack → Bool)
    (rands : Nat → ℚ) (tracks : List OutputTrack) (i : Nat) (tr : OutputTrack)
    (r : ItemResult)
    (ht : tracks[i]? = some tr)
    (hr : (processSpotifyHistory cfg existing search download rands tracks)[i]? = some r) :
    (r.waitAfter ≠ none ↔ (i < tracks.length - 1 ∧ ReachesDownload existing search tr)) ∧
    (∀ w, r.waitAfter = some w →
      w = getRandomWaitTime cfg.minWaitTime cfg.maxWaitTime (rands i) ∧
      (0 ≤ rands i → rands i < 1 → cfg.minWaitTime ≤ cfg.maxWaitTime →
        (cfg.minWaitTime : Int) * 1000 ≤ w ∧ w ≤ (cfg.maxWaitTime : Int) * 1000 ∧
          (1000 : Int) ∣ w)) := by
  rw [processSpotifyHistory_getElem cfg existing search download rands tracks i tr ht] at hr
  obtain rfl : r = processTrack cfg existing search download (rands i) i tracks.length tr :=
    (Option.some.inj hr).symm
  cases hname : truthyStr tr.track_name with
  | none =>
    have hred : processTrack cfg existing search download (rands i) i tracks.length tr =
        { outcome := Outcome.failed, pausedBeforeSkipCheck := false, waitAfter := none } := by
      unfold processTrack
      rw [hname]
    rw [hred]
    refine ⟨⟨fun habs => absurd rfl habs, ?_⟩, fun w hw => by simp at hw⟩
    rintro ⟨_, name, artist, song, hn, _, _, _⟩
    rw [hname] at hn
    exact Option.noConfusion hn
  | some name =>
    cases hartist : truthyStr tr.artist_name with
    | none =>
      have hred : processTrack cfg existing search download (rands i) i tracks.length tr =
          { outcome := Outcome.failed, pausedBeforeSkipCheck := false, waitAfter := none } := by
        unfold processTrack
        rw [hname, hartist]
      rw [hred]
      refine ⟨⟨fun habs => absurd rfl habs, ?_⟩, fun w hw => by simp at hw⟩
      rintro ⟨_, name2, artist2, song, _, ha, _, _⟩
      rw [hartist] at ha
      exact Option.noConfusion ha
    | some artist =>
      cases hsearch : search name artist with
      | none =>
        have hred : processTrack cfg existing search download (rands i) i tracks.length tr =
            { outcome := Outcome.failed, pausedBeforeSkipCheck := false, waitAfter := none } := by
          unfold processTrack
          simp only [hname, hartist, hsearch]
        rw [hred]
        refine ⟨⟨fun habs => absurd rfl habs, ?_⟩, fun w hw => by simp at hw⟩
        rintro ⟨_, name2, artist2, song, hn, ha, hs, _⟩
        obtain rfl : name2 = name := by
          rw [hname] at hn
          exact (Option.some.inj hn).symm
        obtain rfl : artist2 = artist := by
          rw [hartist] at ha
          exact (Option.some.inj ha).symm
        rw [hsearch] at hs
        exact Option.noConfusion hs
      | some song =>
        have hred : processTrack cfg existing search download (rands i) i tracks.length tr =
            (if existing.contains song.id = true then
              { outcome := Outcome.skipped, pausedBeforeSkipCheck := true, waitAfter := none }
            else
              { outcome := if download song tr = true then Outcome.successful else Outcome.failed
              , pausedBeforeSkipCheck := true
              , waitAfter :=
                  if i < tracks.length - 1 then
                    some (getRandomWaitTime cfg.minWaitTime cfg.maxWaitTime (rands i))
                  else none }) := by
          unfold processTrack
          simp only [hname, hartist, hsearch]
        rw [hred]
        by_cases hc : existing.contains song.id = true
        · rw [if_pos hc]
          refine ⟨⟨fun habs => absurd rfl habs, ?_⟩, fun w hw => by simp at hw⟩
          rintro ⟨_, name2, artist2, song2, hn, ha, hs, hcon⟩
          obtain rfl : name2 = name := by
            rw [hname] at hn
            exact (Option.some.inj hn).symm
          obtain rfl : artist2 = artist := by
            rw [hartist] at ha
            exact (Option.some.inj ha).symm
          obtain rfl : song2 = song := by
            rw [hsearch] at hs
            exact (Option.some.inj hs).symm
          rw [hc] at hcon
          exact Bool.noConfusion hcon
        · have hc' : existing.contains song.id = false := by
            cases hb : existing.contains song.id
            · rfl
            · exact absurd hb hc
          rw [if_neg hc]
          by_cases hlast : i < tracks.length - 1
          · rw [if_pos hlast]
            constructor
            · constructor
              · intro _
                exact ⟨hlast, name, artist, song, hname, hartist, hsearch, hc'⟩
              · intro _
                simp
            · intro w hw
              obtain rfl : w = getRandomWaitTime cfg.minWaitTime cfg.maxWaitTime (rands i) :=
                (Option.some.inj hw).symm
              exact ⟨rfl, fun h0 h1 hmm => getRandomWaitTime_range h0 h1 hmm⟩
          · rw [if_neg hlast]
            refine ⟨⟨fun habs => absurd rfl habs, ?_⟩, fun w hw => by simp at hw⟩
            rintro ⟨hl, _⟩
            exact absurd hl hlast

/-- C3 witness: two healthy items, an always-successful search and
download, and a random draw of one half; the first item is followed by
a wait of exactly 8000 ms, within the configured 6 to 10 second
range. -/
theorem c3_wait_placement_witness :
    (((⟨Outcome.successful, true,
        some (getRandomWaitTime cfgEx.minWaitTime cfgEx.maxWaitTime ((1 : ℚ)/2))⟩ :
          ItemResult).waitAfter ≠ none) ↔
      (0 < [trMeta, trMeta].length - 1 ∧ ReachesDownload [] searchHit trMeta)) ∧
    (∀ w, (⟨Outcome.successful, true,
        some (getRandomWaitTime cfgEx.minWaitTime cfgEx.maxWaitTime ((1 : ℚ)/2))⟩ :
          ItemResult).waitAfter = some w →
      w = getRandomWaitTime cfgEx.minWaitTime cfgEx.maxWaitTime ((1 : ℚ)/2) ∧
      (0 ≤ ((1 : ℚ)/2) → ((1 : ℚ)/2) < 1 →
        cfgEx.minWaitTime ≤ cfgEx.maxWaitTime →
        (cfgEx.minWaitTime : Int) * 1000 ≤ w ∧ w ≤ (cfgEx.maxWaitTime : Int) * 1000 ∧
          (1000 : Int) ∣ w)) :=
  c3_wait_placement cfgEx [] searchHit downloadOk (fun _ => (1 : ℚ)/2) [trMeta, trMeta] 0
    trMeta ⟨Outcome.successful, true,
      some (getRandomWaitTime cfgEx.minWaitTime cfgEx.maxWaitTime ((1 : ℚ)/2))⟩ rfl rfl

/-- C8 witness: the aggregated record for URI B in the three-event
fixture satisfies all three parts of the aggregation contract. -/
theorem c8_aggregation_correct_witness :
    aggTrackB.timestamps.Pairwise (fun a b => strLtB b a = false) ∧
    aggTrackB.timestamps.Perm
      (([evA1, evB1, evB2].filter
          (fun e => decide (uriOf e = some aggTrackB.spotify_track_uri))).map (fun e => e.ts)) ∧
    ∃ e0, [evA1, evB1, evB2].find?
        (fun e => decide (uriOf e = some aggTrackB.spotify_track_uri)) = some e0 ∧
      aggTrackB.track_name = e0.master_metadata_track_name ∧
      aggTrackB.artist_name = e0.master_metadata_album_artist_name ∧
      aggTrackB.album_name = e0.master_metadata_album_album_name :=
  (c8_aggregation_correct [evA1, evB1, evB2]).2 aggTrackB (by decide)

end MusicArchiver
